import Mathlib

/-!
# Verification of the `scrap_cityevent` event-scraper core

This file gives a shallow embedding, in Lean 4, of the extraction-and-matching
pipeline of `src/scrap_cityevent/scraper.py` (class `EventScraper`), and proves
or refutes the frozen specification claims about it.

Modelling conventions:
* Python strings are modelled as Lean `String`s; the scanning primitives below
  (`pystrip`, `pylower`, `pyslice`, `pyFindOpt`, ...) mirror the Python string
  methods used by the source (ASCII-faithful; Python's `str.lower` and `\s`
  also handle some non-ASCII characters our inputs never use).
* HTML fragments are modelled as already-parsed element trees (`Html`);
  `BeautifulSoup` queries (`find`, `find_all`, `get_text`, CSS selectors) are
  implemented over those trees, and `render` plays the role of `str(elem)`
  (the source re-parses `str(elem)`, which round-trips to the same tree).
* The regular-expression cascade of `_extract_date` is embedded with a small
  backtracking matcher (`reMatch`) whose priority order (leftmost match,
  greedy quantifiers, ordered alternation) follows Python's `re` module.
* `hashlib.md5` is implemented in full (`md5hex`), over the UTF-8 bytes of the
  input, with 32-bit words as `Nat` reduced `% 2^32`.
* Wall-clock timestamps (`datetime.now()`) are threaded as an explicit `now`
  argument where they land in the persisted store; the `found_at` field of an
  event is omitted from the `Event` structure because no claim reads it and
  the event identity hash does not include it.
-/

namespace Scrap

/-! ## Python string primitives -/

/-- Characters treated as whitespace by Python's `str.strip` / regex `\s`
(ASCII subset). -/
def pyIsSpace (c : Char) : Bool :=
  c = ' ' ∨ c = '\t' ∨ c = '\n' ∨ c = '\r' ∨ c = '\x0b' ∨ c = '\x0c'

/-- Characters of a string, as a list. -/
def cl (s : String) : List Char := s.data

/-- String from a character list. -/
def cs (l : List Char) : String := String.mk l

/-- Python `str.strip()` on a character list. -/
def pystripL (l : List Char) : List Char :=
  ((l.dropWhile pyIsSpace).reverse.dropWhile pyIsSpace).reverse

/-- Python `str.strip()`. -/
def pystrip (s : String) : String := cs (pystripL (cl s))

/-- Python `str.lower()` (ASCII letters only; accented characters our inputs
contain are already lowercase). -/
def pylower (s : String) : String := cs ((cl s).map Char.toLower)

/-- Python `str.capitalize()`: first character uppercased, the rest lowered. -/
def pycapitalize (s : String) : String :=
  match cl s with
  | [] => ""
  | c :: rest => cs (c.toUpper :: rest.map Char.toLower)

/-- First index (from `i`) at which `sub` occurs in `l`, if any. -/
def pyIndexOfAux (sub : List Char) : List Char → Nat → Option Nat
  | [], i => if sub = [] then some i else none
  | c :: rest, i =>
    if sub.isPrefixOf (c :: rest) then some i else pyIndexOfAux sub rest (i + 1)

/-- Python `str.find(sub)`, as an `Option` (Python returns `-1` for `none`). -/
def pyFindOpt (s sub : String) : Option Nat := pyIndexOfAux (cl sub) (cl s) 0

/-- Python `sub in s` substring containment. -/
def pyContains (s sub : String) : Bool := (pyFindOpt s sub).isSome

/-- Python slice `s[a:b]` (for non-negative clamped bounds). -/
def pyslice (s : String) (a b : Nat) : String := cs (((cl s).drop a).take (b - a))

/-- Python `s[:n]`. -/
def pytake (n : Nat) (s : String) : String := cs ((cl s).take n)

/-- Python `s.find(sub, start, end)`: the matched occurrence must lie entirely
inside `s[start:end]`; result is an absolute index. -/
def pyFindFrom (s sub : String) (start stop : Nat) : Option Nat :=
  (pyFindOpt (pyslice s start stop) sub).map (· + start)

/-- Python `s.split('\n')[0]`. -/
def pyFirstLine (s : String) : String := cs ((cl s).takeWhile (· ≠ '\n'))

/-- Python `s.startswith(p)`. -/
def pyStartsWith (s p : String) : Bool := (cl p).isPrefixOf (cl s)

/-- Python `s.endswith(p)`. -/
def pyEndsWith (s p : String) : Bool := (cl p).isSuffixOf (cl s)

/-- Fuel-driven worker for `pyReplaceAll`. -/
def replaceAllAux (old new : List Char) : Nat → List Char → List Char
  | 0, l => l
  | _ + 1, [] => []
  | fuel + 1, c :: rest =>
    if old ≠ [] ∧ old.isPrefixOf (c :: rest) then
      new ++ replaceAllAux old new fuel ((c :: rest).drop old.length)
    else
      c :: replaceAllAux old new fuel rest

/-- Python `s.replace(old, new)` (all occurrences, left to right,
non-overlapping). -/
def pyReplaceAll (s old new : String) : String :=
  cs (replaceAllAux (cl old) (cl new) (cl s).length (cl s))

/-- Python `s.replace(old, new, 1)` for non-empty `old`. -/
def replaceFirstL (old new : List Char) : List Char → List Char
  | [] => []
  | c :: rest =>
    if old ≠ [] ∧ old.isPrefixOf (c :: rest) then
      new ++ (c :: rest).drop old.length
    else
      c :: replaceFirstL old new rest

/-- Python `s.replace(old, new, 1)`. -/
def pyReplaceFirst (s old new : String) : String :=
  cs (replaceFirstL (cl old) (cl new) (cl s))

/-- Worker for `collapseWs`: `prevSp` records whether the previous character
belonged to a whitespace run already emitted as a single space. -/
def collapseAux : Bool → List Char → List Char
  | _, [] => []
  | prevSp, c :: rest =>
    if pyIsSpace c then
      if prevSp then collapseAux true rest else ' ' :: collapseAux true rest
    else
      c :: collapseAux false rest

/-- Python `re.sub(r'\s+', ' ', s)`. -/
def collapseWs (s : String) : String := cs (collapseAux false (cl s))

/-- Strip one trailing `/` from a URL, as the source does before
concatenating a root-relative href (`if base_url.endswith('/')`). -/
def stripTrailingSlash (u : String) : String :=
  if pyEndsWith u "/" then cs ((cl u).dropLast) else u

/-! ## Text normalisation (`EventScraper._normalize_text`) -/

/-- NFKD decomposition followed by ASCII filtering, per character: common
accented Latin letters fold to their base letter, other non-ASCII characters
are dropped; ASCII characters pass through.  This models
`unicodedata.normalize('NFKD', text).encode('ASCII', 'ignore')` for the
character repertoire the scraper deals with. -/
def foldCharAscii (c : Char) : List Char :=
  if c.toNat < 128 then [c]
  else if c = 'à' ∨ c = 'â' ∨ c = 'ä' then ['a']
  else if c = 'é' ∨ c = 'è' ∨ c = 'ê' ∨ c = 'ë' then ['e']
  else if c = 'î' ∨ c = 'ï' then ['i']
  else if c = 'ô' ∨ c = 'ö' then ['o']
  else if c = 'ù' ∨ c = 'û' ∨ c = 'ü' then ['u']
  else if c = 'ç' then ['c']
  else []

/-- `EventScraper._normalize_text`: lowercase, then strip diacritics down to
ASCII.  Empty input yields the empty string. -/
def normalizeText (s : String) : String :=
  cs (((cl (pylower s)).map foldCharAscii).flatten)

/-! ## A small backtracking regex engine

Just enough of Python's `re` to embed the concrete patterns used by
`EventScraper._extract_date` and `_process_event`: literal alternations,
bounded greedy digit runs, `\s+`, `\b`, optional groups and single-character
classes.  `reMatch` returns every end position a pattern can match to from a
start index, in Python's backtracking priority order (greedy first, ordered
alternation), so the head of the list is the end of `match.group(0)`. -/

inductive RE where
  | lit (l : List Char)
  | alt2 (a b : RE)
  | seq2 (a b : RE)
  | digits (lo hi : Nat)
  | wsPlus
  | boundary
  | optional (r : RE)
  | oneOf (l : List Char)
  | fail
deriving Repr

/-- Word character for `\b` (Python additionally counts all Unicode letters;
we include the accented letters appearing in the scraper's vocabulary). -/
def isWordChar (c : Char) : Bool :=
  c.isAlphanum ∨ c = '_' ∨ (cl "àâäéèêëîïôöùûüç").contains c

/-- Whether the character at index `i` (if any) is a word character. -/
def wordAt (s : List Char) (i : Nat) : Bool :=
  match s.get? i with
  | some c => isWordChar c
  | none => false

/-- Python `\b`: true iff exactly one side of position `i` is a word
character. -/
def boundaryAt (s : List Char) (i : Nat) : Bool :=
  (if i = 0 then false else wordAt s (i - 1)) ≠ wordAt s i

/-- Length of the run of decimal digits starting at `i`. -/
def digitRunLen (s : List Char) (i : Nat) : Nat :=
  ((s.drop i).takeWhile Char.isDigit).length

/-- Length of the run of whitespace starting at `i`. -/
def wsRunLen (s : List Char) (i : Nat) : Nat :=
  ((s.drop i).takeWhile pyIsSpace).length

/-- End positions `i + k` for `k = hi', hi'-1, ..., lo` (greedy order), where
`hi'` is `hi` capped by the available run length; empty if the run is shorter
than `lo`. -/
def greedyEnds (i run lo hi : Nat) : List Nat :=
  let top := min hi run
  if top < lo then []
  else (List.range (top + 1 - lo)).map (fun j => i + top - j)

/-- All end positions pattern `r` can match to starting at `i` in `s`, in
backtracking priority order. -/
def reMatch (s : List Char) : RE → Nat → List Nat
  | .fail, _ => []
  | .lit l, i => if l.isPrefixOf (s.drop i) then [i + l.length] else []
  | .alt2 a b, i => reMatch s a i ++ reMatch s b i
  | .seq2 a b, i => (reMatch s a i).flatMap (fun j => reMatch s b j)
  | .digits lo hi, i => greedyEnds i (digitRunLen s i) lo hi
  | .wsPlus, i => greedyEnds i (wsRunLen s i) 1 (wsRunLen s i)
  | .boundary, i => if boundaryAt s i then [i] else []
  | .optional r, i => reMatch s r i ++ [i]
  | .oneOf l, i =>
    match s.get? i with
    | some c => if l.contains c then [i + 1] else []
    | none => []

/-- Ordered alternation of a list of patterns. -/
def alts (rs : List RE) : RE := rs.foldr RE.alt2 .fail

/-- Sequencing of a list of patterns (`lit []` is the empty pattern). -/
def seqs (rs : List RE) : RE := rs.foldr RE.seq2 (.lit [])

/-- Alternation of literal words. -/
def altStrs (ws : List String) : RE := alts (ws.map (fun w => .lit (cl w)))

/-- Python `re.search` from position `pos`: leftmost start, then highest
priority end.  Returns `(start, end)` of `group(0)`. -/
def reSearchFrom (re : RE) (s : List Char) (pos : Nat) : Option (Nat × Nat) :=
  (List.range (s.length + 1 - pos)).findSome? fun d =>
    (reMatch s re (pos + d)).head?.map (fun j => (pos + d, j))

/-- Python `re.search`: the span of the first match, if any. -/
def reSearch (re : RE) (s : List Char) : Option (Nat × Nat) := reSearchFrom re s 0

/-- `group(0)` of the first match of `re` in `s`, as a string. -/
def reSearchText (re : RE) (s : String) : Option String :=
  (reSearch re (cl s)).map (fun m => pyslice s m.1 m.2)

/-- Fuel-driven worker for `reFindAll` (non-overlapping, left to right; empty
matches advance by one, as in Python). -/
def reFindAllAux (re : RE) (s : List Char) : Nat → Nat → List String
  | 0, _ => []
  | fuel + 1, pos =>
    match reSearchFrom re s pos with
    | none => []
    | some (i, j) =>
      pyslice (cs s) i j :: reFindAllAux re s fuel (if i < j then j else i + 1)

/-- Python `re.findall` (for group-free patterns): the matched substrings. -/
def reFindAll (re : RE) (s : String) : List String :=
  reFindAllAux re (cl s) ((cl s).length + 1) 0

/-! ## Date extraction (`EventScraper._extract_date`) -/

def frWeekdays : List String :=
  ["lundi", "mardi", "mercredi", "jeudi", "vendredi", "samedi", "dimanche"]

def enWeekdays : List String :=
  ["monday", "tuesday", "wednesday", "thursday", "friday", "saturday", "sunday"]

def frMonths : List String :=
  ["janvier", "février", "mars", "avril", "mai", "juin", "juillet", "août",
   "septembre", "octobre", "novembre", "décembre"]

def enMonths : List String :=
  ["january", "february", "march", "april", "may", "june", "july", "august",
   "september", "october", "november", "december"]

/-- `r'\b(?:lundi|…)\s+\d{1,2}\s+(?:janvier|…)\b'` -/
def dayPat1 : RE :=
  seqs [.boundary, altStrs frWeekdays, .wsPlus, .digits 1 2, .wsPlus,
        altStrs frMonths, .boundary]

/-- `r'\b(?:monday|…)\s+\d{1,2}\s+(?:january|…)\b'` -/
def dayPat2 : RE :=
  seqs [.boundary, altStrs enWeekdays, .wsPlus, .digits 1 2, .wsPlus,
        altStrs enMonths, .boundary]

/-- `r'\b(?:lundi|…)\s+\d{1,2}/\d{1,2}\b'` -/
def dayPat3 : RE :=
  seqs [.boundary, altStrs frWeekdays, .wsPlus, .digits 1 2, .lit ['/'],
        .digits 1 2, .boundary]

/-- The `day_patterns` list, in source order. -/
def dayPatterns : List RE := [dayPat1, dayPat2, dayPat3]

/-- `r'\b\d{1,2}\s+(?:janvier|…)(?:\s+\d{2,4})?\b'` -/
def datePat1 : RE :=
  seqs [.boundary, .digits 1 2, .wsPlus, altStrs frMonths,
        .optional (seqs [.wsPlus, .digits 2 4]), .boundary]

/-- `r'\b\d{1,2}\s+(?:january|…)(?:\s+\d{2,4})?\b'` -/
def datePat2 : RE :=
  seqs [.boundary, .digits 1 2, .wsPlus, altStrs enMonths,
        .optional (seqs [.wsPlus, .digits 2 4]), .boundary]

/-- `r'du\s+\d{1,2}\s+au\s+\d{1,2}\s+(?:janvier|…)'` (no `\b` in source). -/
def datePat3 : RE :=
  seqs [.lit (cl "du"), .wsPlus, .digits 1 2, .wsPlus, .lit (cl "au"),
        .wsPlus, .digits 1 2, .wsPlus, altStrs frMonths]

/-- `r'le\s+\d{1,2}\s+(?:janvier|…)'` (no `\b` in source). -/
def datePat4 : RE :=
  seqs [.lit (cl "le"), .wsPlus, .digits 1 2, .wsPlus, altStrs frMonths]

/-- `r'\b(?:janvier|…)\s+\d{1,2}(?:,?\s+\d{2,4})?\b'` -/
def datePat5 : RE :=
  seqs [.boundary, altStrs frMonths, .wsPlus, .digits 1 2,
        .optional (seqs [.optional (.lit [',']), .wsPlus, .digits 2 4]),
        .boundary]

/-- `r'\b(?:january|…)\s+\d{1,2}(?:,?\s+\d{2,4})?\b'` -/
def datePat6 : RE :=
  seqs [.boundary, altStrs enMonths, .wsPlus, .digits 1 2,
        .optional (seqs [.optional (.lit [',']), .wsPlus, .digits 2 4]),
        .boundary]

/-- The `date_patterns` list, in source order. -/
def datePatterns : List RE :=
  [datePat1, datePat2, datePat3, datePat4, datePat5, datePat6]

/-- `r'\b\d{1,2}[./]\d{1,2}[./]\d{2,4}\b'` -/
def numPat1 : RE :=
  seqs [.boundary, .digits 1 2, .oneOf ['.', '/'], .digits 1 2,
        .oneOf ['.', '/'], .digits 2 4, .boundary]

/-- `r'\b\d{1,2}[-]\d{1,2}[-]\d{2,4}\b'` -/
def numPat2 : RE :=
  seqs [.boundary, .digits 1 2, .oneOf ['-'], .digits 1 2, .oneOf ['-'],
        .digits 2 4, .boundary]

/-- All month names, French then English (`month_pattern` of the fallback). -/
def monthAllPat : RE := seqs [.boundary, altStrs (frMonths ++ enMonths), .boundary]

/-- `r'\b\d{1,2}\b'` (the `numbers` pattern of the fallback). -/
def numSmallPat : RE := seqs [.boundary, .digits 1 2, .boundary]

/-- `re.split` on the separator class dot, slash, dash: split on every
separator occurrence. -/
def splitSepsL : List Char → List Char → List (List Char)
  | [], acc => [acc.reverse]
  | c :: rest, acc =>
    if c = '.' ∨ c = '/' ∨ c = '-' then acc.reverse :: splitSepsL rest []
    else splitSepsL rest (c :: acc)

/-- Python `int` on a digit string. -/
def digitsVal (l : List Char) : Nat :=
  l.foldl (fun n c => n * 10 + (c.toNat - 48)) 0

/-- Split a matched numeric date on its separators, yielding the integer value
of each part (all parts are digit runs for the patterns above). -/
def splitSepsNat (s : String) : List Nat :=
  (splitSepsL (cl s) []).map (fun p => digitsVal p)

/-- The numeric-date validation of `_extract_date` (lines 335–344): accept a
2- or 3-part split only when the first two parts can be read as day/month in
at least one order. -/
def numericDateValid (parts : List Nat) : Bool :=
  match parts with
  | [a, b, _] =>
    (1 ≤ a ∧ a ≤ 31 ∧ 1 ≤ b ∧ b ≤ 12) ∨ (1 ≤ b ∧ b ≤ 31 ∧ 1 ≤ a ∧ a ≤ 12)
  | [a, b] =>
    (1 ≤ a ∧ a ≤ 31 ∧ 1 ≤ b ∧ b ≤ 12) ∨ (1 ≤ b ∧ b ≤ 31 ∧ 1 ≤ a ∧ a ≤ 12)
  | _ => false

/-- One numeric pattern: search, then validate the first match; an invalid
match falls through to the next pattern (not to later matches). -/
def tryNumericPattern (re : RE) (content : String) : Option String :=
  match reSearchText re content with
  | none => none
  | some dateStr =>
    if numericDateValid (splitSepsNat dateStr) then some dateStr else none

/-- First valid day number (`1 ≤ n ≤ 31`) in a list of matched number
strings. -/
def firstValidDay : List String → Option String
  | [] => none
  | n :: rest =>
    if 1 ≤ digitsVal (cl n) ∧ digitsVal (cl n) ≤ 31 then some n
    else firstValidDay rest

/-- The month-name fallback of `_extract_date` (lines 346–377): find a month
name, look for a 1–2 digit day number within a ±20-character window, and
combine them in source order. -/
def monthFallback (content contentLower : String) : String :=
  match reSearch monthAllPat (cl contentLower) with
  | none => ""
  | some (i, j) =>
    let month := pyslice contentLower i j
    let monthIdx := (pyFindOpt contentLower (pylower month)).getD 0
    let contextStart := monthIdx - 20
    let contextEnd := min (cl content).length (monthIdx + (cl month).length + 20)
    let context := pyslice content contextStart contextEnd
    let numbers := reFindAll numSmallPat context
    match firstValidDay numbers with
    | some number =>
      match pyFindFrom contentLower number contextStart contextEnd with
      | some k =>
        if monthIdx < k then pycapitalize month ++ " " ++ number
        else number ++ " " ++ pycapitalize month
      | none => number ++ " " ++ pycapitalize month
    | none => pycapitalize month

/-- `EventScraper._extract_date`: the ordered pattern cascade.  Day-of-week
patterns first, then month-name date patterns, then validated numeric dates,
then the month-name fallback; empty string when nothing matches. -/
def extractDate (eventContent : String) : String :=
  let content := pystrip (pyReplaceAll eventContent "&nbsp;" " ")
  let contentLower := pylower content
  match dayPatterns.findSome? (fun p => reSearchText p contentLower) with
  | some m => pycapitalize m
  | none =>
    match datePatterns.findSome? (fun p => reSearchText p contentLower) with
    | some m => pycapitalize m
    | none =>
      match [numPat1, numPat2].findSome? (fun p => tryNumericPattern p content) with
      | some d => d
      | none => monthFallback content contentLower

/-! ## HTML trees and BeautifulSoup-style queries

Fragments and pages are modelled as parsed element trees.  The source passes
`str(event_elem)` to `_process_event` and re-parses it, which round-trips to
the same tree; `render` plays the role of `str(elem)` for the raw-string
checks (`'class="event"' in event_html`) and for `_extract_date`'s input.
A mutually-inductive list type is used for children so that all traversals
are structural recursions (and hence reduce definitionally). -/

mutual
inductive Html where
  | text (s : String)
  | elem (tag : String) (attrs : List (String × String)) (children : HtmlList)
deriving Repr

inductive HtmlList where
  | nil
  | cons (h : Html) (t : HtmlList)
deriving Repr
end

/-- Attribute lookup (`elem['name']` / `'name' in elem.attrs`). -/
def attrOf (attrs : List (String × String)) (name : String) : Option String :=
  (attrs.find? (fun kv => kv.1 = name)).map (·.2)

mutual
/-- `str(elem)`: serialise a node back to HTML text. -/
def render : Html → String
  | .text s => s
  | .elem tag attrs children =>
    "<" ++ tag ++
      (attrs.foldl (fun acc kv => acc ++ " " ++ kv.1 ++ "=\"" ++ kv.2 ++ "\"") "") ++
      ">" ++ renderList children ++ "</" ++ tag ++ ">"

def renderList : HtmlList → String
  | .nil => ""
  | .cons h t => render h ++ renderList t
end

mutual
/-- `elem.get_text()`: concatenation of all descendant text, in order. -/
def getText : Html → String
  | .text s => s
  | .elem _ _ children => getTextList children

def getTextList : HtmlList → String
  | .nil => ""
  | .cons h t => getText h ++ getTextList t
end

mutual
/-- First node (document pre-order) satisfying `p`, searching a single tree
(the node itself, then its descendants). -/
def findNode (p : Html → Bool) : Html → Option Html
  | .text s => if p (.text s) then some (.text s) else none
  | .elem tag attrs children =>
    if p (.elem tag attrs children) then some (.elem tag attrs children)
    else findNodeList p children

/-- First node (document pre-order) satisfying `p` in a forest. -/
def findNodeList (p : Html → Bool) : HtmlList → Option Html
  | .nil => none
  | .cons h t =>
    match findNode p h with
    | some r => some r
    | none => findNodeList p t
end

mutual
/-- All nodes (document pre-order) satisfying `p` in a tree. -/
def findAllNode (p : Html → Bool) : Html → List Html
  | .text s => if p (.text s) then [.text s] else []
  | .elem tag attrs children =>
    (if p (.elem tag attrs children) then [.elem tag attrs children] else []) ++
      findAllNodeList p children

/-- All nodes (document pre-order) satisfying `p` in a forest. -/
def findAllNodeList (p : Html → Bool) : HtmlList → List Html
  | .nil => []
  | .cons h t => findAllNode p h ++ findAllNodeList p t
end

/-- Tag of an element node (empty for text nodes). -/
def tagOf : Html → String
  | .text _ => ""
  | .elem tag _ _ => tag

/-- Attributes of an element node. -/
def attrsOf : Html → List (String × String)
  | .text _ => []
  | .elem _ attrs _ => attrs

/-- Is this an element with the given tag name? -/
def hasTag (t : String) (h : Html) : Bool :=
  match h with
  | .text _ => false
  | .elem tag _ _ => tag = t

/-- `soup.find(tag)` over a forest. -/
def findTag (forest : HtmlList) (t : String) : Option Html :=
  findNodeList (hasTag t) forest

/-- `soup.find_all([tags])` over a forest: document order, filtered by tag
set. -/
def findAllTags (forest : HtmlList) (ts : List String) : List Html :=
  findAllNodeList (fun h => ts.any (fun t => hasTag t h)) forest

/-- Python whitespace-split (for multi-valued attributes such as `class` and
`rel`). -/
def pySplitWs (s : String) : List String :=
  (((cl s).splitOnP pyIsSpace).map cs).filter (· ≠ "")

/-- BeautifulSoup `class_=c` / `rel=c` matching: the attribute value, split on
whitespace, contains `c`. -/
def hasAttrValue (h : Html) (name value : String) : Bool :=
  match attrOf (attrsOf h) name with
  | some v => (pySplitWs v).contains value
  | none => false

/-- A CSS selector of the shape `tag.class` (`tag?` optional): used for the
fallback selector list in `find_new_events`. -/
def cssSelect (forest : HtmlList) (tag : Option String) (csscls : String) : List Html :=
  findAllNodeList
    (fun h =>
      (match tag with | some t => hasTag t h | none => !(tagOf h).isEmpty) &&
        hasAttrValue h "class" csscls)
    forest

/-- `soup.find_all('a', href=True)`. -/
def findAllAnchorsWithHref (forest : HtmlList) : List Html :=
  findAllNodeList (fun h => hasTag "a" h ∧ (attrOf (attrsOf h) "href").isSome) forest

/-! ## MD5 (`hashlib.md5(...).hexdigest()`)

A full implementation of MD5 over byte lists, with 32-bit words as `Nat`
reduced modulo `2^32`.  `md5hex` hashes the UTF-8 encoding of a string and
hex-encodes the digest, exactly what `_generate_event_id` computes. -/

/-- Reduce to a 32-bit word. -/
def m32 (x : Nat) : Nat := x % 4294967296

/-- Bitwise complement on 32-bit words (for `x < 2^32`). -/
def bnot32 (x : Nat) : Nat := 4294967295 - x

/-- Left-rotate a 32-bit word by `s` bits (`0 < s < 32`). -/
def rotl32 (x s : Nat) : Nat := m32 (x * 2 ^ s) + x / 2 ^ (32 - s)

/-- MD5 round functions F, G, H, I. -/
def md5F (b c d : Nat) : Nat := (b &&& c) ||| (bnot32 b &&& d)

def md5G (b c d : Nat) : Nat := (d &&& b) ||| (bnot32 d &&& c)

def md5H (b c d : Nat) : Nat := b ^^^ c ^^^ d

def md5I (b c d : Nat) : Nat := c ^^^ (b ||| bnot32 d)

/-- The 64 MD5 sine-derived constants `K[i] = floor(2^32 * |sin(i+1)|)`. -/
def md5K : List Nat :=
  [3614090360, 3905402710, 606105819, 3250441966, 4118548399, 1200080426,
   2821735955, 4249261313, 1770035416, 2336552879, 4294925233, 2304563134,
   1804603682, 4254626195, 2792965006, 1236535329, 4129170786, 3225465664,
   643717713, 3921069994, 3593408605, 38016083, 3634488961, 3889429448,
   568446438, 3275163606, 4107603335, 1163531501, 2850285829, 4243563512,
   1735328473, 2368359562, 4294588738, 2272392833, 1839030562, 4259657740,
   2763975236, 1272893353, 4139469664, 3200236656, 681279174, 3936430074,
   3572445317, 76029189, 3654602809, 3873151461, 530742520, 3299628645,
   4096336452, 1126891415, 2878612391, 4237533241, 1700485571, 2399980690,
   4293915773, 2240044497, 1873313359, 4264355552, 2734768916, 1309151649,
   4149444226, 3174756917, 718787259, 3951481745]

/-- The 64 MD5 per-round left-rotation amounts. -/
def md5S : List Nat :=
  [7, 12, 17, 22, 7, 12, 17, 22, 7, 12, 17, 22, 7, 12, 17, 22,
   5, 9, 14, 20, 5, 9, 14, 20, 5, 9, 14, 20, 5, 9, 14, 20,
   4, 11, 16, 23, 4, 11, 16, 23, 4, 11, 16, 23, 4, 11, 16, 23,
   6, 10, 15, 21, 6, 10, 15, 21, 6, 10, 15, 21, 6, 10, 15, 21]

/-- One MD5 round `i` on state `(a, b, c, d)` with message words `m`. -/
def md5Round (m : List Nat) (st : Nat × Nat × Nat × Nat) (i : Nat) :
    Nat × Nat × Nat × Nat :=
  let (a, b, c, d) := st
  let fg : Nat × Nat :=
    if i < 16 then (md5F b c d, i)
    else if i < 32 then (md5G b c d, (5 * i + 1) % 16)
    else if i < 48 then (md5H b c d, (3 * i + 5) % 16)
    else (md5I b c d, (7 * i) % 16)
  let tmp := m32 (fg.1 + a + md5K.getD i 0 + m.getD fg.2 0)
  (d, m32 (b + rotl32 tmp (md5S.getD i 0)), b, c)

/-- Split a byte list into the sixteen 32-bit little-endian words of one
64-byte block. -/
def md5Words : List Nat → List Nat
  | b0 :: b1 :: b2 :: b3 :: rest =>
    (b0 + 256 * b1 + 65536 * b2 + 16777216 * b3) :: md5Words rest
  | _ => []

/-- Process one 64-byte block, updating the running state. -/
def md5Block (st : Nat × Nat × Nat × Nat) (block : List Nat) :
    Nat × Nat × Nat × Nat :=
  let m := md5Words block
  let (a, b, c, d) := (List.range 64).foldl (md5Round m) st
  (m32 (st.1 + a), m32 (st.2.1 + b), m32 (st.2.2.1 + c), m32 (st.2.2.2 + d))

/-- Split a list into chunks of 64. -/
def chunks64 : Nat → List Nat → List (List Nat)
  | 0, _ => []
  | _ + 1, [] => []
  | fuel + 1, l => l.take 64 :: chunks64 fuel (l.drop 64)

/-- MD5 padding: append `0x80`, zero-pad to 56 mod 64, then the original bit
length as a 64-bit little-endian integer. -/
def md5Pad (msg : List Nat) : List Nat :=
  let len := msg.length
  let zeros := (119 - len % 64) % 64
  let bitLen := (len * 8) % 18446744073709551616
  msg ++ [128] ++ List.replicate zeros 0 ++
    (List.range 8).map (fun i => bitLen / 256 ^ i % 256)

/-- Two lowercase hex digits of a byte. -/
def byteHex (n : Nat) : String :=
  let digit := fun (d : Nat) =>
    cs [(cl "0123456789abcdef").getD d '0']
  digit (n / 16 % 16) ++ digit (n % 16)

/-- Little-endian hex of a 32-bit word. -/
def wordHexLE (w : Nat) : String :=
  byteHex (w % 256) ++ byteHex (w / 256 % 256) ++ byteHex (w / 65536 % 256) ++
    byteHex (w / 16777216 % 256)

/-- MD5 digest of a byte list, as a 32-character lowercase hex string. -/
def md5Bytes (msg : List Nat) : String :=
  let padded := md5Pad msg
  let blocks := chunks64 padded.length padded
  let st := blocks.foldl md5Block (1732584193, 4023233417, 2562383102, 271733878)
  wordHexLE st.1 ++ wordHexLE st.2.1 ++ wordHexLE st.2.2.1 ++ wordHexLE st.2.2.2

/-- UTF-8 encoding of one character. -/
def charUtf8 (c : Char) : List Nat :=
  let n := c.toNat
  if n < 128 then [n]
  else if n < 2048 then [192 + n / 64, 128 + n % 64]
  else if n < 65536 then [224 + n / 4096, 128 + n / 64 % 64, 128 + n % 64]
  else [240 + n / 262144, 128 + n / 4096 % 64, 128 + n / 64 % 64, 128 + n % 64]

/-- `hashlib.md5(s.encode('utf-8')).hexdigest()`. -/
def md5hex (s : String) : String :=
  md5Bytes (((cl s).map charUtf8).flatten)

/-- `EventScraper._generate_event_id`: the hex MD5 of
`title ++ "-" ++ date ++ "-" ++ link`. -/
def generateEventId (title date link : String) : String :=
  md5hex (title ++ "-" ++ date ++ "-" ++ link)

/-! ## Event extraction and matching (`EventScraper._process_event`) -/

/-- The title-element cascade of `_process_event` (lines 395–423).  The two
branches differ: for `class="event"` fragments the last resort is the first
`div`/`p`/`span` whose stripped text exceeds 10 characters; for other
fragments it is the first `p`/`div`/`span` with any non-empty text, after
also trying `h3`, `h4`, a (never-matching) `.event-title` tag and `strong`. -/
def resolveTitleElem (isWebsiteEvent : Bool) (soup : HtmlList) : Option Html :=
  if isWebsiteEvent then
    match findTag soup "h2" with
    | some e => some e
    | none =>
      match findTag soup "strong" with
      | some e => some e
      | none =>
        (findAllTags soup ["div", "p", "span"]).find?
          (fun e => (cl (pystrip (getText e))).length > 10)
  else
    match findTag soup "h2" with
    | some e => some e
    | none =>
      match
        (findTag soup "h3").orElse (fun _ =>
          (findTag soup "h4").orElse (fun _ =>
            (findTag soup ".event-title").orElse (fun _ => findTag soup "strong")))
      with
      | some e => some e
      | none =>
        (findAllTags soup ["p", "div", "span"]).find?
          (fun e => pystrip (getText e) ≠ "")

/-- The resolved title of `_process_event` (lines 424–428): the stripped text
of the title element, or the first line of all text truncated to 100
characters when no title element was found. -/
def resolveTitle (isWebsiteEvent : Bool) (soup : HtmlList) : String :=
  match resolveTitleElem isWebsiteEvent soup with
  | none => pytake 100 (pyFirstLine (pystrip (getTextList soup)))
  | some e => pystrip (getText e)

/-- The raw link href of `_process_event` (lines 435–449), before
absolutisation; `#` when no anchor with an href is found. -/
def resolveLinkHref (isWebsiteEvent : Bool) (soup : HtmlList) : String :=
  let fallbackLinks :=
    match findAllNodeList (hasTag "a") soup with
    | [] => "#"
    | a0 :: _ => (attrOf (attrsOf a0) "href").getD "#"
  if isWebsiteEvent then
    match findAllAnchorsWithHref soup with
    | [] => "#"
    | a :: _ => (attrOf (attrsOf a) "href").getD "#"
  else
    match findTag soup "a" with
    | some a =>
      match attrOf (attrsOf a) "href" with
      | some h => h
      | none => fallbackLinks
    | none => fallbackLinks

/-- Absolutisation of a root-relative href (lines 452–456): when the href
starts with `/`, prefix the page base URL with one trailing slash stripped. -/
def resolveLink (selfUrl : String) (isWebsiteEvent : Bool) (soup : HtmlList) : String :=
  let link := resolveLinkHref isWebsiteEvent soup
  if pyStartsWith link "/" then stripTrailingSlash selfUrl ++ link else link

/-- The description post-processing of `_process_event` (lines 463–473):
remove the first occurrence of the title, collapse whitespace, break after
sentence-ending punctuation, truncate at 2000 characters. -/
def buildInfo (fullText title : String) : String :=
  let info := fullText
  let info := if pyContains info title then pystrip (pyReplaceFirst info title "") else info
  let info := pystrip (collapseWs info)
  let info := pyReplaceAll (pyReplaceAll (pyReplaceAll info ". " ".\n") "! " "!\n") "? " "?\n"
  if (cl info).length > 2000 then pytake 2000 info ++ "..." else info

/-- French month names with word boundaries (the revalidation pattern of
lines 483). -/
def monthFrPat : RE := seqs [.boundary, altStrs frMonths, .boundary]

/-- French weekday names with word boundaries (lines 498). -/
def dayFrPat : RE := seqs [.boundary, altStrs frWeekdays, .boundary]

/-- The date revalidation of `_process_event` (lines 479–504): a date made of
digits and periods only is replaced by a re-extraction around a French month
name, by the bare month, or by the context around a French weekday name. -/
def revalidateDate (date fullText : String) : String :=
  if date ≠ "" ∧ (cl date).all (fun c => c.isDigit ∨ c = '.') then
    match reSearch monthFrPat (cl (pylower fullText)) with
    | some (i, j) =>
      let monthContext := pyslice fullText (i - 20) (min (cl fullText).length (j + 20))
      let properDate := extractDate monthContext
      if properDate ≠ "" then properDate
      else pycapitalize (pyslice (pylower fullText) i j)
    | none =>
      match reSearch dayFrPat (cl (pylower fullText)) with
      | some (i, j) =>
        pystrip (pyslice fullText (i - 10) (min (cl fullText).length (j + 30)))
      | none => date
  else date

/-- The term-matching loop of `_process_event` (lines 510–529), with the
`exact_matching` flag threaded exactly as in the source: both branches test
the same four substring containments. -/
def matchLoop (searchTerms : List String) (normalizedTitle normalizedInfo : String)
    (exactMatching : Bool) : List String :=
  searchTerms.foldl
    (fun acc term =>
      let termLower := pylower term
      let termNormalized := normalizeText term
      if exactMatching then
        if pyContains normalizedTitle termLower ∨ pyContains normalizedInfo termLower ∨
            pyContains normalizedTitle termNormalized ∨
            pyContains normalizedInfo termNormalized then
          if term ∉ acc then acc ++ [term] else acc
        else acc
      else
        if pyContains normalizedTitle termLower ∨ pyContains normalizedInfo termLower ∨
            pyContains normalizedTitle termNormalized ∨
            pyContains normalizedInfo termNormalized then
          if term ∉ acc then acc ++ [term] else acc
        else acc)
    []

/-- A matched event, as built by `_process_event` (lines 536–547).  The
`found_at` wall-clock field is omitted: no claim reads it and it does not
feed the identity hash. -/
structure Event where
  title : String
  originalTitle : String
  link : String
  info : String
  date : String
  matchingTerms : List String
  id : String
deriving Repr, DecidableEq

/-- `EventScraper._process_event`: extract title, link, description and date
from one fragment, match against the search terms, and build the event with
the first matching term as display title; `none` when the title is empty or
no term matches. -/
def processEvent (selfUrl : String) (searchTerms : List String)
    (exactMatching : Bool) (frag : Html) : Option Event :=
  let eventHtml := render frag
  let isWebsiteEvent := pyContains eventHtml "class=\"event\""
  let soup : HtmlList := .cons frag .nil
  let title := resolveTitle isWebsiteEvent soup
  if title = "" then none
  else
    let link := resolveLink selfUrl isWebsiteEvent soup
    let fullText := pystrip (getTextList soup)
    let info := buildInfo fullText title
    let date := revalidateDate (extractDate eventHtml) fullText
    let normalizedTitle := normalizeText title
    let normalizedInfo := normalizeText info
    let matchingTerms := matchLoop searchTerms normalizedTitle normalizedInfo exactMatching
    match matchingTerms with
    | [] => none
    | m :: rest =>
      some
        { title := m
          originalTitle := title
          link := link
          info := info
          date := date
          matchingTerms := m :: rest
          id := generateEventId m date link }

/-! ## Term-variant expansion (`EventScraper._add_term_variants`) -/

/-- `EventScraper._add_term_variants`: mutate the search-term list using the
variants map.  With no base terms, append every variant with non-empty strip
(deduplicated exactly) and then every key (deduplicated exactly); otherwise,
for each original term, append the variants of loosely- or exactly-matching
keys, deduplicated case-insensitively against a snapshot of the term list
taken before each key's variants are appended. -/
def addTermVariants (searchTerms : List String)
    (termVariants : List (String × List String)) : List String :=
  if termVariants ≠ [] ∧ searchTerms = [] then
    let ts := termVariants.foldl
      (fun ts kv =>
        kv.2.foldl (fun ts v => if pystrip v ≠ "" ∧ v ∉ ts then ts ++ [v] else ts) ts)
      searchTerms
    termVariants.foldl (fun ts kv => if kv.1 ∉ ts then ts ++ [kv.1] else ts) ts
  else
    searchTerms.foldl
      (fun ts term =>
        let termLower := pylower term
        let normalizedTerm := normalizeText term
        if termVariants.length > 0 ∧ ¬ termVariants.any (fun kv => kv.1 = term) then
          termVariants.foldl
            (fun ts kv =>
              let keyLower := pylower kv.1
              if pyContains termLower keyLower ∨ pyContains keyLower termLower ∨
                  kv.2.any (fun v => pyContains termLower (pylower v)) ∨
                  kv.2.any (fun v => pyContains (pylower v) termLower) then
                let normalizedTs := ts.map pylower
                kv.2.foldl
                  (fun ts v => if pylower v ∉ normalizedTs then ts ++ [v] else ts) ts
              else ts)
            ts
        else
          termVariants.foldl
            (fun ts kv =>
              let keyLower := pylower kv.1
              if termLower = keyLower ∨ normalizedTerm = normalizeText kv.1 ∨
                  pyContains keyLower termLower ∨ pyContains termLower keyLower then
                let normalizedTs := ts.map pylower
                kv.2.foldl
                  (fun ts v => if pylower v ∉ normalizedTs then ts ++ [v] else ts) ts
              else ts)
            ts)
      searchTerms

/-- The search-term extension at the start of `find_new_events` (lines
576–581), used when no search terms are configured but variants exist:
extend with every key's variants, then the key itself if absent. -/
def extendTermsFromVariants (searchTerms : List String)
    (termVariants : List (String × List String)) : List String :=
  termVariants.foldl
    (fun ts kv =>
      let ts := ts ++ kv.2
      if kv.1 ∉ ts then ts ++ [kv.1] else ts)
    searchTerms

/-! ## The event store and the page walk (`EventScraper.find_new_events`) -/

/-- One processed-events record (`{'processed_at': …, 'notified': False}`). -/
structure ProcRecord where
  processedAt : String
  notified : Bool
deriving Repr, DecidableEq

/-- The in-memory `processed_events` mapping, as an association list. -/
abbrev Store := List (String × ProcRecord)

/-- `event_id in self.processed_events`. -/
def storeHasId (st : Store) (eid : String) : Bool := st.any (fun e => e.1 = eid)

/-- The per-page fragment loop of `find_new_events` (lines 629–642): process
each fragment; append events whose id is unseen and record them in the store
immediately. -/
def processFragments (selfUrl : String) (terms : List String) (ex : Bool)
    (now : String) : List Html → Store → List Event × Store
  | [], st => ([], st)
  | frag :: rest, st =>
    match processEvent selfUrl terms ex frag with
    | none => processFragments selfUrl terms ex now rest st
    | some e =>
      if storeHasId st e.id then processFragments selfUrl terms ex now rest st
      else
        let r := processFragments selfUrl terms ex now rest (st ++ [(e.id, ⟨now, false⟩)])
        (e :: r.1, r.2)

/-- The fallback CSS selectors of `find_new_events` (line 610), in order. -/
def selectorList : List (Option String × String) :=
  [(some "div", "event"), (none, "event-item"), (some "div", "ce_text"),
   (none, "post"), (none, "item"), (none, "newsBox"), (none, "event-box")]

/-- First selector in the list yielding a non-empty element list. -/
def firstNonEmptySelect (page : HtmlList) : List (Option String × String) → List Html
  | [] => []
  | s :: rest =>
    match cssSelect page s.1 s.2 with
    | [] => firstNonEmptySelect page rest
    | e :: es => e :: es

/-- The cascading fragment-discovery strategy of `find_new_events` (lines
600–626): `article` elements, else the first non-empty fallback selector,
else any `div` whose stripped text exceeds 100 characters. -/
def selectEventElements (page : HtmlList) : List Html :=
  match findAllNodeList (hasTag "article") page with
  | a :: rest => a :: rest
  | [] =>
    match firstNonEmptySelect page selectorList with
    | e :: es => e :: es
    | [] =>
      (findAllNodeList (hasTag "div") page).filter
        (fun d => (cl (pystrip (getText d))).length > 100)

/-- Absolutisation of the next-page href (lines 652–658): for a root-relative
href, the base URL is the scraper's entry URL with any query string and one
trailing slash stripped. -/
def resolveNextHref (selfUrl href : String) : String :=
  if pyStartsWith href "/" then
    let base :=
      if pyContains selfUrl "?" then cs ((cl selfUrl).takeWhile (· ≠ '?'))
      else selfUrl
    stripTrailingSlash base ++ href
  else href

/-- Next-page discovery (lines 644–659): the first `ul.pagination`, its first
`a` with `rel="next"` and an href; an empty resolved URL is falsy and stops
the walk. -/
def findNextPage (selfUrl : String) (page : HtmlList) : Option String :=
  match findNodeList (fun h => hasTag "ul" h && hasAttrValue h "class" "pagination") page with
  | none => none
  | some (.text _) => none
  | some (.elem _ _ children) =>
    match findNodeList (fun h => hasTag "a" h && hasAttrValue h "rel" "next") children with
    | none => none
    | some a =>
      match attrOf (attrsOf a) "href" with
      | none => none
      | some href =>
        let np := resolveNextHref selfUrl href
        if np = "" then none else some np

/-- The page loop of `find_new_events` (lines 590–667), with `fuel` standing
for `max_pages - pages_scraped`.  A failed fetch raises, which aborts the
whole walk (`none`); otherwise the fragments of each page are processed and
the walk follows the next-page link while fuel remains. -/
def walk (fetch : String → Option HtmlList) (selfUrl : String)
    (terms : List String) (ex : Bool) (now : String) :
    Nat → String → Store → Option (List Event × Store)
  | 0, _, st => some ([], st)
  | fuel + 1, current, st =>
    if current = "" then some ([], st)
    else
      match fetch current with
      | none => none
      | some page =>
        let frags := selectEventElements page
        let r := processFragments selfUrl terms ex now frags st
        match findNextPage selfUrl page with
        | none => some r
        | some nu =>
          match walk fetch selfUrl terms ex now fuel nu r.2 with
          | none => none
          | some (es2, st3) => some (r.1 ++ es2, st3)

/-- `EventScraper.find_new_events`: abort with no events when neither terms
nor variants are configured; extend empty terms from the variants; walk the
pages; persist the store only when the walk succeeds (the second component is
`some` exactly when `_save_processed_events` runs, so `none` means the
persisted file is untouched). -/
def findNewEvents (fetch : String → Option HtmlList) (url : String)
    (maxPages : Nat) (searchTerms : List String)
    (termVariants : List (String × List String)) (ex : Bool) (store : Store)
    (now : String) : List Event × Option Store :=
  if searchTerms = [] ∧ termVariants = [] then ([], none)
  else
    let terms :=
      if searchTerms = [] then extendTermsFromVariants [] termVariants
      else searchTerms
    match walk fetch url terms ex now maxPages url store with
    | none => ([], none)
    | some (es, st) => (es, some st)

/-- The URLs `find_new_events` attempts to fetch, in order: mirrors `walk`'s
traversal (which is independent of the store and the search terms). -/
def visitedUrls (fetch : String → Option HtmlList) (selfUrl : String) :
    Nat → String → List String
  | 0, _ => []
  | fuel + 1, current =>
    if current = "" then []
    else
      current ::
        match fetch current with
        | none => []
        | some page =>
          match findNextPage selfUrl page with
          | none => []
          | some nu => visitedUrls fetch selfUrl fuel nu

/-! ## Spec-side definitions for the title-resolution claim

`titleSpecClaimed` follows the claim's wording (one uniform cascade for every
fragment); `titleSpecAmended` follows the amended wording (the two
`class="event"`-dependent branches actually implemented), phrased as an
ordered strategy list. -/

/-- The title cascade as the claim words it, uniformly for every fragment:
heading-level element, then bold/strong, then the first element with more
than 10 characters of text, then the first line of all text truncated to 100
characters. -/
def titleSpecClaimed (soup : HtmlList) : String :=
  let strat : Option Html :=
    (findNodeList (fun h => ["h1", "h2", "h3", "h4", "h5", "h6"].any (fun t => hasTag t h))
        soup).orElse fun _ =>
      (findNodeList (fun h => hasTag "b" h || hasTag "strong" h) soup).orElse fun _ =>
        ((findAllNodeList (fun h => !(tagOf h).isEmpty) soup).find?
          (fun e => (cl (pystrip (getText e))).length > 10))
  match strat with
  | some e => pystrip (getText e)
  | none => pytake 100 (pyFirstLine (pystrip (getTextList soup)))

/-- The title cascade as amended: for `class="event"` fragments, `h2`, then
`strong`, then the first `div`/`p`/`span` with more than 10 characters of
stripped text; for other fragments, `h2`, then `h3`/`h4`/an `.event-title`
tag/`strong`, then the first `p`/`div`/`span` with non-empty stripped text;
in both branches falling back to the first line of all text truncated to 100
characters. -/
def titleSpecAmended (isWebsiteEvent : Bool) (soup : HtmlList) : String :=
  let strat : Option Html :=
    if isWebsiteEvent then
      (findTag soup "h2").orElse fun _ =>
        (findTag soup "strong").orElse fun _ =>
          (findAllTags soup ["div", "p", "span"]).find?
            (fun e => (cl (pystrip (getText e))).length > 10)
    else
      (findTag soup "h2").orElse fun _ =>
        (findTag soup "h3").orElse fun _ =>
          (findTag soup "h4").orElse fun _ =>
            (findTag soup ".event-title").orElse fun _ =>
              (findTag soup "strong").orElse fun _ =>
                (findAllTags soup ["p", "div", "span"]).find?
                  (fun e => pystrip (getText e) ≠ "")
  match strat with
  | none => pytake 100 (pyFirstLine (pystrip (getTextList soup)))
  | some e => pystrip (getText e)

/-! ## Concrete fixtures used by witnesses and counterexamples -/

/-- The fragment of the link-resolution claim: `<h2>Concert Jazz</h2>`, a
venue paragraph, and an anchor with root-relative href `/events/42`. -/
def concertFragment : Html :=
  .elem "div" []
    (.cons (.elem "h2" [] (.cons (.text "Concert Jazz") .nil))
      (.cons (.elem "p" [] (.cons (.text "Venue details...") .nil))
        (.cons (.elem "a" [("href", "/events/42")] .nil) .nil)))

/-- The event `_process_event` extracts from `concertFragment` with search
term `jazz` on base URL `https://city.example/agenda`. -/
def concertEvent : Event :=
  { title := "jazz"
    originalTitle := "Concert Jazz"
    link := "https://city.example/agenda/events/42"
    info := "Venue details..."
    date := ""
    matchingTerms := ["jazz"]
    id := "d52ba898abb71156a9fea5bd6a48b58b" }

/-- A fragment (no `class="event"`) whose first `p` has short text while a
later element has more than 10 characters of text. -/
def tinyFragment : Html :=
  .elem "article" []
    (.cons (.elem "p" [] (.cons (.text "tiny") .nil))
      (.cons (.elem "p" [] (.cons (.text "a sufficiently long title here") .nil)) .nil))

/-- A one-event page fragment: `<article><h2>Jazz Night</h2></article>`. -/
def jazzFragment : Html :=
  .elem "article" [] (.cons (.elem "h2" [] (.cons (.text "Jazz Night") .nil)) .nil)

/-- A single page holding `jazzFragment`, with no pagination. -/
def jazzPage : HtmlList := .cons jazzFragment .nil

/-- A site with exactly one page at `https://e.org`. -/
def jazzFetch : String → Option HtmlList :=
  fun u => if u = "https://e.org" then some jazzPage else none

/-- The event extracted from `jazzFragment` with search term `jazz`. -/
def jazzEvent : Event :=
  { title := "jazz"
    originalTitle := "Jazz Night"
    link := "#"
    info := ""
    date := ""
    matchingTerms := ["jazz"]
    id := "b9b41d5ff044db9f51268db8f415d961" }

/-- The store persisted by a first successful run over `jazzFetch`. -/
def jazzStore : Store :=
  [("b9b41d5ff044db9f51268db8f415d961", { processedAt := "t1", notified := false })]

/-- A site whose every fetch fails. -/
def failFetch : String → Option HtmlList := fun _ => none

/-- A fragment with no text at all (empty resolved title). -/
def emptyFragment : Html := .elem "div" [] .nil

/-! ## Theorems -/

/-- C4: for every fragment and every fixed set of search terms, the pipeline
produces the same result whether the `exact_matching` flag is true or false:
both branches of the matching routine perform identical substring-containment
logic. -/
theorem exact_matching_flag_no_op (selfUrl : String) (searchTerms : List String)
    (b1 b2 : Bool) (frag : Html) :
    processEvent selfUrl searchTerms b1 frag = processEvent selfUrl searchTerms b2 frag := by
  cases b1 <;> cases b2 <;> rfl

set_option maxRecDepth 100000 in
/-- C2 (counterexample): on the claim's own fragment and base URL
`https://city.example/agenda`, the extracted event's link is **not**
`https://city.example/events/42` — the code prefixes the whole base URL
(path included), it does not resolve against the URL's origin. -/
theorem link_resolution_counterexample :
    (processEvent "https://city.example/agenda" ["jazz"] true concertFragment).map Event.link ≠
        some "https://city.example/events/42" ∧
      (processEvent "https://city.example/agenda" ["jazz"] true concertFragment).isSome = true := by
  exact ⟨by decide, by decide⟩

set_option maxRecDepth 100000 in
/-- C2 (amended): the root-relative href `/events/42` is resolved by
prefixing the full base URL with its trailing slash stripped, yielding
`https://city.example/agenda/events/42` (the base URL's path is retained). -/
theorem link_resolution_amended :
    (processEvent "https://city.example/agenda" ["jazz"] true concertFragment).map Event.link =
      some "https://city.example/agenda/events/42" := by
  decide

set_option maxRecDepth 1000000 in
/-- C5: the numeric-date validator accepts only 2- or 3-part splits whose
first two parts admit a day/month reading in at least one order, and
`_extract_date("appelez le 04.68.29")` returns the empty string rather than
`"04.68.29"`. -/
theorem numeric_date_validation :
    (∀ parts : List Nat, numericDateValid parts = true →
        (parts.length = 2 ∨ parts.length = 3) ∧
          ∃ a b rest, parts = a :: b :: rest ∧
            ((a ≤ 31 ∧ b ≤ 12) ∨ (a ≤ 12 ∧ b ≤ 31))) ∧
      extractDate "appelez le 04.68.29" = "" := by
  constructor
  · intro parts h
    match parts with
    | [] => simp [numericDateValid] at h
    | [a] => simp [numericDateValid] at h
    | [a, b] =>
      simp [numericDateValid] at h
      exact ⟨Or.inl rfl, a, b, [], rfl, by omega⟩
    | [a, b, c] =>
      simp [numericDateValid] at h
      exact ⟨Or.inr rfl, a, b, [c], rfl, by omega⟩
    | a :: b :: c :: d :: rest => simp [numericDateValid] at h
  · decide

set_option maxRecDepth 1000000 in
/-- Witness for C5, at the concrete accepted split `[4, 12, 2024]` and the
claim's concrete phone-number input. -/
theorem numeric_date_validation_witness :
    ((([4, 12, 2024] : List Nat).length = 2 ∨ ([4, 12, 2024] : List Nat).length = 3) ∧
        ∃ a b rest, ([4, 12, 2024] : List Nat) = a :: b :: rest ∧
          ((a ≤ 31 ∧ b ≤ 12) ∨ (a ≤ 12 ∧ b ≤ 31))) ∧
      extractDate "appelez le 04.68.29" = "" :=
  ⟨numeric_date_validation.1 [4, 12, 2024] (by decide), numeric_date_validation.2⟩

set_option maxRecDepth 1000000 in
/-- C6 (counterexample): on a fragment without `class="event"` whose first
`p` holds 4 characters of text while a later element holds more than 10, the
code resolves the title to the short text `"tiny"`, while the claimed uniform
cascade (heading → bold/strong → first element with more than 10 characters →
first-line fallback) resolves a different title: the third fallback of the
non-`class="event"` branch accepts any non-empty text, with no 10-character
threshold. -/
theorem title_resolution_counterexample :
    resolveTitle false (.cons tinyFragment .nil) = "tiny" ∧
      titleSpecClaimed (.cons tinyFragment .nil) = "tinya sufficiently long title here" ∧
      pyContains (render tinyFragment) "class=\"event\"" = false ∧
      (processEvent "https://x" ["tiny"] true tinyFragment).map Event.originalTitle =
        some "tiny" ∧
      ("tiny" : String) ≠ "tinya sufficiently long title here" :=
  ⟨by decide, by decide, by decide, by decide, by decide⟩

/-- C6 (amended): the title cascade is branch-sensitive — for fragments whose
raw HTML contains `class="event"` it is `h2` → `strong` → first
`div`/`p`/`span` with more than 10 characters of text; for other fragments it
is `h2` → `h3`/`h4`/an `.event-title` tag/`strong` → first `p`/`div`/`span`
with non-empty text; both branches fall back to the first line of all text
truncated to 100 characters; and a fragment whose resolved title is empty
yields no candidate event. -/
theorem title_resolution_amended :
    (∀ (isW : Bool) (soup : HtmlList), resolveTitle isW soup = titleSpecAmended isW soup) ∧
      ∀ (u : String) (ts : List String) (ex : Bool) (frag : Html),
        resolveTitle (pyContains (render frag) "class=\"event\"") (.cons frag .nil) = "" →
          processEvent u ts ex frag = none := by
  constructor
  · intro isW soup
    cases isW <;>
      simp only [resolveTitle, resolveTitleElem, titleSpecAmended] <;>
        cases h2 : findTag soup "h2" <;>
          cases h3 : findTag soup "h3" <;>
            cases h4 : findTag soup "h4" <;>
              cases he : findTag soup ".event-title" <;>
                cases hs : findTag soup "strong" <;> rfl
  · intro u ts ex frag h
    simp [processEvent, h]

/-- Witness for C6 (amended), at a fragment with no text: the resolved title
is empty and `_process_event` returns no event. -/
theorem title_resolution_amended_witness :
    processEvent "https://x" ["x"] true emptyFragment = none :=
  title_resolution_amended.2 "https://x" ["x"] true emptyFragment (by decide)

/-- Every member of `matchLoop terms nt ni ex` is one of the search terms. -/
theorem matchLoop_subset (terms : List String) (nt ni : String) (ex : Bool) :
    ∀ x ∈ matchLoop terms nt ni ex, x ∈ terms := by
  have aux : ∀ (l acc : List String), (∀ y ∈ acc, y ∈ terms) → l ⊆ terms →
      ∀ x ∈ l.foldl
        (fun acc term =>
          let termLower := pylower term
          let termNormalized := normalizeText term
          if ex then
            if pyContains nt termLower ∨ pyContains ni termLower ∨
                pyContains nt termNormalized ∨ pyContains ni termNormalized then
              if term ∉ acc then acc ++ [term] else acc
            else acc
          else
            if pyContains nt termLower ∨ pyContains ni termLower ∨
                pyContains nt termNormalized ∨ pyContains ni termNormalized then
              if term ∉ acc then acc ++ [term] else acc
            else acc)
        acc, x ∈ terms := by
    intro l
    induction l with
    | nil => intro acc hacc _ x hx; exact hacc x (by simpa using hx)
    | cons t ts ih =>
      intro acc hacc hsub x hx
      rw [List.foldl_cons] at hx
      refine ih _ ?_ (fun y hy => hsub (by simp [hy])) x hx
      intro y hy
      have ht : t ∈ terms := hsub (by simp)
      dsimp only at hy
      split at hy
      · split at hy
        · split at hy
          · rcases List.mem_append.mp hy with h | h
            · exact hacc y h
            · simpa [List.mem_singleton.mp h] using ht
          · exact hacc y hy
        · exact hacc y hy
      · split at hy
        · split at hy
          · rcases List.mem_append.mp hy with h | h
            · exact hacc y h
            · simpa [List.mem_singleton.mp h] using ht
          · exact hacc y hy
        · exact hacc y hy
  intro x hx
  exact aux terms [] (by simp) (fun y hy => hy) x hx

/-- The fields of an event built the way `_process_event` builds one: stated
over opaque field values so the conclusions are small definitional checks. -/
theorem event_mk_fields (m t l i d : String) (rest : List String) (e : Event)
    (h : ({ title := m, originalTitle := t, link := l, info := i, date := d,
            matchingTerms := m :: rest, id := generateEventId m d l } : Event) = e) :
    e.id = generateEventId e.title e.date e.link ∧
      e.id = md5hex (e.title ++ "-" ++ e.date ++ "-" ++ e.link) ∧
      e.title = e.matchingTerms.headD "" := by
  subst h
  exact ⟨rfl, rfl, rfl⟩

/-- C7: the event identifier is the hex MD5 of
`display title ++ "-" ++ date ++ "-" ++ link`, where the display title is the
first matching term; it is a pure function of that triple (determinism is
function application in this model). -/
theorem event_id_from_display_title (u : String) (ts : List String) (ex : Bool)
    (frag : Html) (e : Event) (h : processEvent u ts ex frag = some e) :
    e.id = generateEventId e.title e.date e.link ∧
      e.id = md5hex (e.title ++ "-" ++ e.date ++ "-" ++ e.link) ∧
      e.title = e.matchingTerms.headD "" := by
  simp only [processEvent] at h
  split at h
  · exact absurd h (by simp)
  · split at h
    · exact absurd h (by simp)
    · rw [Option.some.injEq] at h
      exact event_mk_fields _ _ _ _ _ _ e h

set_option maxRecDepth 1000000 in
set_option maxHeartbeats 2000000 in
/-- Witness for C7: the concrete extracted event of `concertFragment` has id
`MD5("jazz--https://city.example/agenda/events/42")`. -/
theorem event_id_from_display_title_witness :
    concertEvent.id = generateEventId concertEvent.title concertEvent.date concertEvent.link ∧
      concertEvent.id =
        md5hex (concertEvent.title ++ "-" ++ concertEvent.date ++ "-" ++ concertEvent.link) ∧
      concertEvent.title = concertEvent.matchingTerms.headD "" :=
  event_id_from_display_title "https://city.example/agenda" ["jazz"] true concertFragment
    concertEvent (by decide)

/-- C8: a matched event always carries a non-empty `matching_terms` list, and
every member of it is one of the search terms in force. -/
theorem matching_terms_nonempty_and_from_terms (u : String) (ts : List String)
    (ex : Bool) (frag : Html) (e : Event) (h : processEvent u ts ex frag = some e) :
    e.matchingTerms ≠ [] ∧ ∀ t ∈ e.matchingTerms, t ∈ ts := by
  simp only [processEvent] at h
  split at h
  · exact absurd h (by simp)
  · rename_i heq
    split at h
    · exact absurd h (by simp)
    · rename_i m rest hml
      rw [Option.some.injEq] at h
      subst h
      refine ⟨by simp, ?_⟩
      intro t ht
      have ht' : t ∈ m :: rest := ht
      exact matchLoop_subset _ _ _ _ t (hml ▸ ht')

set_option maxRecDepth 1000000 in
set_option maxHeartbeats 2000000 in
/-- Witness for C8: the concrete event of `jazzFragment`. -/
theorem matching_terms_nonempty_and_from_terms_witness :
    jazzEvent.matchingTerms ≠ [] ∧ ∀ t ∈ jazzEvent.matchingTerms, t ∈ ["jazz"] :=
  matching_terms_nonempty_and_from_terms "https://e.org" ["jazz"] true jazzFragment jazzEvent
    (by decide)

/-- Folding a step that never removes elements preserves membership. -/
theorem foldl_mem_mono {β : Type} (g : List String → β → List String)
    (hmem : ∀ ts x y, y ∈ ts → y ∈ g ts x) :
    ∀ (l : List β) (ts : List String) (y : String), y ∈ ts → y ∈ l.foldl g ts := by
  intro l
  induction l with
  | nil => intro ts y hy; simpa using hy
  | cons b bs ih =>
    intro ts y hy
    rw [List.foldl_cons]
    exact ih _ y (hmem ts b y hy)

/-- Folding a step that preserves `Nodup` preserves `Nodup`. -/
theorem foldl_nodup {β : Type} (g : List String → β → List String)
    (hnd : ∀ ts x, ts.Nodup → (g ts x).Nodup) :
    ∀ (l : List β) (ts : List String), ts.Nodup → (l.foldl g ts).Nodup := by
  intro l
  induction l with
  | nil => intro ts h; simpa using h
  | cons b bs ih =>
    intro ts h
    rw [List.foldl_cons]
    exact ih _ (hnd ts b h)

/-- If processing a traversed element always puts `tgt` in the accumulator,
and the step never removes elements, then `tgt` is in the fold's result. -/
theorem foldl_contains {β : Type} (g : List String → β → List String)
    (hmem : ∀ ts x y, y ∈ ts → y ∈ g ts x) :
    ∀ (l : List β) (ts : List String) (x : β) (tgt : String),
      x ∈ l → (∀ ts', tgt ∈ g ts' x) → tgt ∈ l.foldl g ts := by
  intro l
  induction l with
  | nil => intro ts x tgt hx; exact absurd hx (by simp)
  | cons b bs ih =>
    intro ts x tgt hx hg
    rw [List.foldl_cons]
    rcases List.mem_cons.mp hx with rfl | hx'
    · exact foldl_mem_mono g hmem bs _ tgt (hg ts)
    · exact ih _ x tgt hx' hg

/-- C3 (counterexample): expanding no base terms against the variant map
`{"a": ["A", " "]}` yields `["A", "a"]`, which contains two members equal
case-insensitively (the deduplication of this branch is exact, not
case-insensitive) and omits the whitespace-only variant `" "`. -/
theorem term_expansion_counterexample :
    addTermVariants [] [("a", ["A", " "])] = ["A", "a"] ∧
      pylower "A" = pylower "a" ∧ ("A" : String) ≠ "a" ∧
      (" " : String) ∉ addTermVariants [] [("a", ["A", " "])] :=
  ⟨by decide, by decide, by decide, by decide⟩

/-- C3 (amended): for every variant map `V`, expanding an empty base-term
sequence against `V` yields a term list that contains every key of `V` and
every variant value whose strip is non-empty, with no two members exactly
equal (the deduplication is case-sensitive). -/
theorem term_expansion_amended (variants : List (String × List String)) :
    (∀ kv ∈ variants, kv.1 ∈ addTermVariants [] variants) ∧
      (∀ kv ∈ variants, ∀ v ∈ kv.2, pystrip v ≠ "" → v ∈ addTermVariants [] variants) ∧
      (addTermVariants [] variants).Nodup := by
  by_cases hv : variants = []
  · subst hv
    exact ⟨by simp, by simp, by decide⟩
  · have hcond : variants ≠ [] ∧ ([] : List String) = [] := ⟨hv, rfl⟩
    have hmemVar : ∀ (ts : List String) (v : String) (y : String), y ∈ ts →
        y ∈ (if pystrip v ≠ "" ∧ v ∉ ts then ts ++ [v] else ts) := by
      intro ts v y hy
      split <;> simp [hy]
    have hmemInner : ∀ (ts : List String) (kv : String × List String) (y : String),
        y ∈ ts →
        y ∈ kv.2.foldl (fun ts v => if pystrip v ≠ "" ∧ v ∉ ts then ts ++ [v] else ts) ts := by
      intro ts kv y hy
      exact foldl_mem_mono _ hmemVar kv.2 ts y hy
    have hmemKey : ∀ (ts : List String) (kv : String × List String) (y : String),
        y ∈ ts → y ∈ (if kv.1 ∉ ts then ts ++ [kv.1] else ts) := by
      intro ts kv y hy
      split <;> simp [hy]
    have hndVar : ∀ (ts : List String) (v : String), ts.Nodup →
        (if pystrip v ≠ "" ∧ v ∉ ts then ts ++ [v] else ts).Nodup := by
      intro ts v hnd
      split
      · next hc => simp [List.nodup_append, hnd, hc.2]
      · exact hnd
    have hndInner : ∀ (ts : List String) (kv : String × List String), ts.Nodup →
        (kv.2.foldl (fun ts v => if pystrip v ≠ "" ∧ v ∉ ts then ts ++ [v] else ts) ts).Nodup := by
      intro ts kv hnd
      exact foldl_nodup _ hndVar kv.2 ts hnd
    have hndKey : ∀ (ts : List String) (kv : String × List String), ts.Nodup →
        (if kv.1 ∉ ts then ts ++ [kv.1] else ts).Nodup := by
      intro ts kv hnd
      split
      · next hc => simp [List.nodup_append, hnd, hc]
      · exact hnd
    simp only [addTermVariants]
    rw [if_pos (show variants ≠ [] ∧ True from ⟨hv, trivial⟩)]
    refine ⟨?_, ?_, ?_⟩
    · intro kv hkv
      refine foldl_contains _ hmemKey variants _ kv kv.1 hkv ?_
      intro ts'
      by_cases hin : kv.1 ∈ ts'
      · simp [hin]
      · simp [hin]
    · intro kv hkv v hvin hstrip
      have hbase : v ∈ variants.foldl
          (fun ts kv => kv.2.foldl
            (fun ts v => if pystrip v ≠ "" ∧ v ∉ ts then ts ++ [v] else ts) ts) [] := by
        refine foldl_contains _ hmemInner variants [] kv v hkv ?_
        intro ts'
        refine foldl_contains _ hmemVar kv.2 ts' v v hvin ?_
        intro ts''
        by_cases hin : v ∈ ts''
        · simp [hin]
        · simp [hstrip, hin]
      exact foldl_mem_mono _ hmemKey variants _ v hbase
    · exact foldl_nodup _ hndKey variants _ (foldl_nodup _ hndInner variants [] (by simp))

/-- Witness for C3 (amended), at the concrete variant map `{"a": ["A"]}`. -/
theorem term_expansion_amended_witness :
    ("A" : String) ∈ addTermVariants [] [("a", ["A"])] :=
  (term_expansion_amended [("a", ["A"])]).2.1 ("a", ["A"]) (by decide) "A" (by decide)
    (by decide)

/-- Appending one record does not lose store membership. -/
theorem storeHasId_append_left (st : Store) (p : String × ProcRecord) (j : String)
    (h : storeHasId st j = true) : storeHasId (st ++ [p]) j = true := by
  simp only [storeHasId, List.any_append, Bool.or_eq_true]
  exact Or.inl h

/-- The appended id is in the store. -/
theorem storeHasId_append_self (st : Store) (r : ProcRecord) (j : String) :
    storeHasId (st ++ [(j, r)]) j = true := by
  simp [storeHasId]

/-- Absence in an extended store implies absence in the original. -/
theorem storeHasId_of_append_false (st : Store) (p : String × ProcRecord) (j : String)
    (h : storeHasId (st ++ [p]) j = false) : storeHasId st j = false := by
  simp only [storeHasId, List.any_append, Bool.or_eq_false_iff] at h
  exact h.1

/-- Invariants of the per-page fragment loop: the store only grows, every
emitted event was new and is recorded afterwards, emitted ids are pairwise
distinct, and every event any fragment of the page yields is recorded in the
resulting store. -/
theorem processFragments_prop (u : String) (terms : List String) (ex : Bool)
    (now : String) :
    ∀ (frags : List Html) (st : Store),
      (∀ j, storeHasId st j = true →
          storeHasId (processFragments u terms ex now frags st).2 j = true) ∧
        (∀ e ∈ (processFragments u terms ex now frags st).1,
            storeHasId st e.id = false ∧
              storeHasId (processFragments u terms ex now frags st).2 e.id = true) ∧
        ((processFragments u terms ex now frags st).1.map Event.id).Nodup ∧
        (∀ frag ∈ frags, ∀ ev, processEvent u terms ex frag = some ev →
            storeHasId (processFragments u terms ex now frags st).2 ev.id = true) := by
  intro frags
  induction frags with
  | nil =>
    intro st
    exact ⟨fun j h => h, by simp [processFragments], by simp [processFragments], by simp⟩
  | cons frag rest ih =>
    intro st
    cases hpe : processEvent u terms ex frag with
    | none =>
      simp only [processFragments, hpe]
      obtain ⟨ih1, ih2, ih3, ih4⟩ := ih st
      refine ⟨ih1, ih2, ih3, ?_⟩
      intro f hf ev hev
      rcases List.mem_cons.mp hf with rfl | hf'
      · rw [hpe] at hev; cases hev
      · exact ih4 f hf' ev hev
    | some e =>
      by_cases hin : storeHasId st e.id = true
      · simp only [processFragments, hpe, hin, if_true]
        obtain ⟨ih1, ih2, ih3, ih4⟩ := ih st
        refine ⟨ih1, ih2, ih3, ?_⟩
        intro f hf ev hev
        rcases List.mem_cons.mp hf with rfl | hf'
        · rw [hpe] at hev
          rw [Option.some.injEq] at hev
          subst hev
          exact ih1 e.id hin
        · exact ih4 f hf' ev hev
      · have hin' : storeHasId st e.id = false := by
          cases hx : storeHasId st e.id
          · rfl
          · exact absurd hx hin
        simp only [processFragments, hpe, hin, if_false]
        obtain ⟨ih1, ih2, ih3, ih4⟩ := ih (st ++ [(e.id, ⟨now, false⟩)])
        refine ⟨?_, ?_, ?_, ?_⟩
        · intro j hj
          exact ih1 j (storeHasId_append_left st _ j hj)
        · intro e' he'
          rcases List.mem_cons.mp he' with rfl | he''
          · exact ⟨hin', ih1 e'.id (storeHasId_append_self st _ e'.id)⟩
          · obtain ⟨h1, h2⟩ := ih2 e' he''
            exact ⟨storeHasId_of_append_false st _ e'.id h1, h2⟩
        · refine List.nodup_cons.mpr ⟨?_, ih3⟩
          intro hmem
          rcases List.mem_map.mp hmem with ⟨e', he', heq⟩
          obtain ⟨h1, _⟩ := ih2 e' he'
          rw [heq] at h1
          have h2 := storeHasId_append_self st ⟨now, false⟩ e.id
          rw [h1] at h2
          exact Bool.noConfusion h2
        · intro f hf ev hev
          rcases List.mem_cons.mp hf with rfl | hf'
          · rw [hpe] at hev
            rw [Option.some.injEq] at hev
            subst hev
            exact ih1 e.id (storeHasId_append_self st _ e.id)
          · exact ih4 f hf' ev hev

/-- When every event a page's fragments yield is already in the store, the
fragment loop emits nothing and leaves the store unchanged. -/
theorem processFragments_skip (u : String) (terms : List String) (ex : Bool)
    (now : String) :
    ∀ (frags : List Html) (st : Store),
      (∀ frag ∈ frags, ∀ ev, processEvent u terms ex frag = some ev →
          storeHasId st ev.id = true) →
      processFragments u terms ex now frags st = ([], st) := by
  intro frags
  induction frags with
  | nil => intro st _; rfl
  | cons frag rest ih =>
    intro st hcov
    cases hpe : processEvent u terms ex frag with
    | none =>
      simp only [processFragments, hpe]
      exact ih st (fun f hf ev hev => hcov f (by simp [hf]) ev hev)
    | some e =>
      have hin : storeHasId st e.id = true := hcov frag (by simp) e hpe
      simp only [processFragments, hpe, hin, if_true]
      exact ih st (fun f hf ev hev => hcov f (by simp [hf]) ev hev)

/-- Invariants of the page walk: on success the store only grows, every
returned event was new at walk start and is in the final store, and the
returned ids are pairwise distinct. -/
theorem walk_prop (fetch : String → Option HtmlList) (selfUrl : String)
    (terms : List String) (ex : Bool) (now : String) :
    ∀ (fuel : Nat) (cur : String) (st : Store) (es : List Event) (st' : Store),
      walk fetch selfUrl terms ex now fuel cur st = some (es, st') →
      (∀ j, storeHasId st j = true → storeHasId st' j = true) ∧
        (∀ e ∈ es, storeHasId st e.id = false ∧ storeHasId st' e.id = true) ∧
        (es.map Event.id).Nodup := by
  intro fuel
  induction fuel with
  | zero =>
    intro cur st es st' h
    simp only [walk, Option.some.injEq, Prod.mk.injEq] at h
    obtain ⟨rfl, rfl⟩ := h
    exact ⟨fun j hj => hj, by simp, by simp⟩
  | succ n ih =>
    intro cur st es st' h
    by_cases hcur : cur = ""
    · simp only [walk, hcur, if_true, Option.some.injEq, Prod.mk.injEq] at h
      obtain ⟨rfl, rfl⟩ := h
      exact ⟨fun j hj => hj, by simp, by simp⟩
    · simp only [walk, hcur, if_false] at h
      cases hfc : fetch cur with
      | none => rw [hfc] at h; cases h
      | some page =>
        rw [hfc] at h
        simp only at h
        obtain ⟨pf1, pf2, pf3, _⟩ :=
          processFragments_prop selfUrl terms ex now (selectEventElements page) st
        cases hnp : findNextPage selfUrl page with
        | none =>
          rw [hnp] at h
          rw [Option.some.injEq] at h
          have h1 : (processFragments selfUrl terms ex now (selectEventElements page) st).1
              = es := by rw [h]
          have h2 : (processFragments selfUrl terms ex now (selectEventElements page) st).2
              = st' := by rw [h]
          rw [← h1, ← h2]
          exact ⟨pf1, pf2, pf3⟩
        | some nu =>
          rw [hnp] at h
          dsimp only at h
          cases hw : walk fetch selfUrl terms ex now n nu
              (processFragments selfUrl terms ex now (selectEventElements page) st).2 with
          | none => rw [hw] at h; cases h
          | some r2 =>
            rw [hw] at h
            simp only [Option.some.injEq, Prod.mk.injEq] at h
            obtain ⟨w1, w2, w3⟩ := ih nu _ r2.1 r2.2 (by rw [hw])
            obtain ⟨h1, h2⟩ := h
            rw [← h1, ← h2]
            refine ⟨fun j hj => w1 j (pf1 j hj), ?_, ?_⟩
            · intro e he
              rcases List.mem_append.mp he with he' | he'
              · obtain ⟨ha, hb⟩ := pf2 e he'
                exact ⟨ha, w1 e.id hb⟩
              · obtain ⟨ha, hb⟩ := w2 e he'
                constructor
                · cases hst : storeHasId st e.id
                  · rfl
                  · rw [pf1 e.id hst] at ha; exact Bool.noConfusion ha
                · exact hb
            · rw [List.map_append]
              refine List.Nodup.append pf3 w3 ?_
              intro x hx1 hx2
              rcases List.mem_map.mp hx1 with ⟨e1, he1, rfl⟩
              rcases List.mem_map.mp hx2 with ⟨e2, he2, heq⟩
              obtain ⟨_, hb1⟩ := pf2 e1 he1
              obtain ⟨ha2, _⟩ := w2 e2 he2
              rw [heq] at ha2
              rw [hb1] at ha2
              exact Bool.noConfusion ha2

/-- C10: within a single run, the returned list of new events has
pairwise-distinct event ids: an id is recorded in the in-memory store the
moment its event is appended, so no later fragment re-appends it. -/
theorem new_event_ids_distinct (fetch : String → Option HtmlList) (url : String)
    (maxPages : Nat) (searchTerms : List String)
    (termVariants : List (String × List String)) (ex : Bool) (store : Store)
    (now : String) :
    (((findNewEvents fetch url maxPages searchTerms termVariants ex store now).1).map
        Event.id).Nodup := by
  unfold findNewEvents
  split
  · simp
  · cases hw : walk fetch url
        (if searchTerms = [] then extendTermsFromVariants [] termVariants else searchTerms)
        ex now maxPages url store with
    | none => simp [hw]
    | some r =>
      simp only [hw]
      exact (walk_prop fetch url _ ex now maxPages url store r.1 r.2 (by rw [hw])).2.2

/-- A failed fetch of any visited URL makes the whole walk fail. -/
theorem walk_fails_of_visited_failure (fetch : String → Option HtmlList)
    (selfUrl : String) (ex : Bool) (now : String) (u : String) (hf : fetch u = none) :
    ∀ (fuel : Nat) (cur : String) (st : Store) (terms : List String),
      u ∈ visitedUrls fetch selfUrl fuel cur →
      walk fetch selfUrl terms ex now fuel cur st = none := by
  intro fuel
  induction fuel with
  | zero => intro cur st terms h; simp [visitedUrls] at h
  | succ n ih =>
    intro cur st terms h
    by_cases hcur : cur = ""
    · simp [visitedUrls, hcur] at h
    · simp only [visitedUrls, hcur, if_false] at h
      rcases List.mem_cons.mp h with rfl | hrest
      · simp only [walk, hcur, if_false, hf]
      · cases hfc : fetch cur with
        | none => rw [hfc] at hrest; simp at hrest
        | some page =>
          rw [hfc] at hrest
          dsimp only at hrest
          cases hnp : findNextPage selfUrl page with
          | none => rw [hnp] at hrest; simp at hrest
          | some nu =>
            rw [hnp] at hrest
            dsimp only at hrest
            simp only [walk, hcur, if_false, hfc, hnp]
            rw [ih nu _ terms hrest]

/-- C9: if any page fetch during the walk fails, the run aborts:
`find_new_events` returns no events and does not persist the store (the
persisted file is untouched). -/
theorem fetch_failure_aborts_run (fetch : String → Option HtmlList) (url : String)
    (maxPages : Nat) (searchTerms : List String)
    (termVariants : List (String × List String)) (ex : Bool) (store : Store)
    (now : String) (u : String) (hu : u ∈ visitedUrls fetch url maxPages url)
    (hf : fetch u = none) :
    findNewEvents fetch url maxPages searchTerms termVariants ex store now = ([], none) := by
  unfold findNewEvents
  split
  · rfl
  · dsimp only
    rw [walk_fails_of_visited_failure fetch url ex now u hf maxPages url store _ hu]

/-- Witness for C9: a site whose first fetch fails yields no events and no
persisted store. -/
theorem fetch_failure_aborts_run_witness :
    findNewEvents failFetch "https://e.org" 5 ["jazz"] [] true [] "t1" = ([], none) :=
  fetch_failure_aborts_run failFetch "https://e.org" 5 ["jazz"] [] true [] "t1"
    "https://e.org" (by decide) rfl

/-- Re-running the walk over the same pages with a store that already holds
every id the first walk recorded yields no events and leaves the store
unchanged. -/
theorem walk_idempotent (fetch : String → Option HtmlList) (selfUrl : String)
    (terms : List String) (ex : Bool) (now1 now2 : String) :
    ∀ (fuel : Nat) (cur : String) (S T : Store) (es : List Event) (S' : Store),
      walk fetch selfUrl terms ex now1 fuel cur S = some (es, S') →
      (∀ j, storeHasId S' j = true → storeHasId T j = true) →
      walk fetch selfUrl terms ex now2 fuel cur T = some ([], T) := by
  intro fuel
  induction fuel with
  | zero => intro cur S T es S' _ _; rfl
  | succ n ih =>
    intro cur S T es S' h hsub
    by_cases hcur : cur = ""
    · simp [walk, hcur]
    · simp only [walk, hcur, if_false] at h ⊢
      cases hfc : fetch cur with
      | none =>
        try simp only [hfc] at h
        try dsimp only at h
        exact Option.noConfusion h
      | some page =>
        try simp only [hfc] at h ⊢
        try dsimp only at h ⊢
        obtain ⟨pf1, _, _, pf4⟩ :=
          processFragments_prop selfUrl terms ex now1 (selectEventElements page) S
        cases hnp : findNextPage selfUrl page with
        | none =>
          try simp only [hnp] at h ⊢
          try dsimp only at h ⊢
          rw [Option.some.injEq] at h
          have hS' : (processFragments selfUrl terms ex now1 (selectEventElements page) S).2
              = S' := by rw [h]
          have hcov : ∀ frag ∈ selectEventElements page, ∀ ev,
              processEvent selfUrl terms ex frag = some ev →
              storeHasId T ev.id = true := by
            intro f hfm ev hev
            exact hsub ev.id (hS' ▸ pf4 f hfm ev hev)
          rw [processFragments_skip selfUrl terms ex now2 (selectEventElements page) T hcov]
        | some nu =>
          try simp only [hnp] at h ⊢
          try dsimp only at h ⊢
          cases hw : walk fetch selfUrl terms ex now1 n nu
              (processFragments selfUrl terms ex now1 (selectEventElements page) S).2 with
          | none =>
            try simp only [hw] at h
            try dsimp only at h
            exact Option.noConfusion h
          | some r2 =>
            try simp only [hw] at h
            try dsimp only at h
            simp only [Option.some.injEq, Prod.mk.injEq] at h
            obtain ⟨h1, h2⟩ := h
            obtain ⟨w1, _, _⟩ := walk_prop fetch selfUrl terms ex now1 n nu _ r2.1 r2.2
              (by rw [hw])
            have hcov : ∀ frag ∈ selectEventElements page, ∀ ev,
                processEvent selfUrl terms ex frag = some ev →
                storeHasId T ev.id = true := by
              intro f hfm ev hev
              refine hsub ev.id ?_
              rw [← h2]
              exact w1 ev.id (pf4 f hfm ev hev)
            rw [processFragments_skip selfUrl terms ex now2 (selectEventElements page) T hcov]
            dsimp only
            have hrec := ih nu _ T r2.1 r2.2 (by rw [hw]) (by rw [← h2] at hsub; exact hsub)
            rw [hrec]
            rfl

/-- C1: idempotence of the walk — if a run of `find_new_events` succeeds and
its persisted store is reloaded, a second run against byte-identical page
content finds no new events. -/
theorem second_run_finds_nothing (fetch : String → Option HtmlList) (url : String)
    (maxPages : Nat) (searchTerms : List String)
    (termVariants : List (String × List String)) (ex : Bool) (S0 : Store)
    (now1 now2 : String) (es1 : List Event) (S1 : Store)
    (h : findNewEvents fetch url maxPages searchTerms termVariants ex S0 now1 =
      (es1, some S1)) :
    (findNewEvents fetch url maxPages searchTerms termVariants ex S1 now2).1 = [] := by
  unfold findNewEvents at h ⊢
  split at h
  · exact absurd (congrArg Prod.snd h) (by simp)
  · next hc =>
    rw [if_neg hc]
    dsimp only at h ⊢
    cases hw : walk fetch url
        (if searchTerms = [] then extendTermsFromVariants [] termVariants else searchTerms)
        ex now1 maxPages url S0 with
    | none => rw [hw] at h; exact absurd (congrArg Prod.snd h) (by simp)
    | some r =>
      rw [hw] at h
      simp only [Prod.mk.injEq, Option.some.injEq] at h
      obtain ⟨_, h2⟩ := h
      have := walk_idempotent fetch url
        (if searchTerms = [] then extendTermsFromVariants [] termVariants else searchTerms)
        ex now1 now2 maxPages url S0 S1 r.1 r.2 (by rw [hw]) (by rw [h2]; exact fun j hj => hj)
      rw [this]

set_option maxRecDepth 1000000 in
set_option maxHeartbeats 4000000 in
/-- Witness for C1: a concrete first run over `jazzFetch` persists
`jazzStore`, and the second run from that store returns no events. -/
theorem second_run_finds_nothing_witness :
    (findNewEvents jazzFetch "https://e.org" 5 ["jazz"] [] true jazzStore "t2").1 = [] :=
  second_run_finds_nothing jazzFetch "https://e.org" 5 ["jazz"] [] true [] "t1" "t2"
    [jazzEvent] jazzStore (by decide)

end Scrap
